import Mathlib

/-!
Verification development for the pitchteacher note-quiz engine
(`src/main.jsx`).  The JavaScript core is shallowly embedded: pure helpers
become Lean functions, the React component state becomes an explicit
`AppState` record with event handlers as state-transition functions, the
two `Math.random()` draws consumed by one target selection become explicit
rational inputs `u ∈ [0,1)` (`Math.random()` is modelled as a uniform draw
from `[0,1)`), and `localStorage` + `JSON.parse` results become
`Option (Option Json)` inputs (absent / present-but-unparseable /
parsed value).  MIDI numbers are natural numbers; all JavaScript
arithmetic on them stays in the nonnegative range where JS `%`, `/` and
`Math.floor` agree with Nat `%` and `/`.
-/

namespace PitchTeacher

/-- Source: `PITCH_CLASS_TO_PC`, the label → semitone-index object. -/
def PITCH_CLASS_TO_PC : List (String × Nat) :=
  [("C", 0), ("C#", 1), ("D", 2), ("D#", 3), ("E", 4), ("F", 5),
   ("F#", 6), ("G", 7), ("G#", 8), ("A", 9), ("A#", 10), ("B", 11)]

/-- The 12 pitch-class labels, in display order (source: `PITCH_CLASSES`,
a separate literal whose entries coincide with the keys of
`PITCH_CLASS_TO_PC` in order, so it is rendered here as that key list). -/
def PITCH_CLASSES : List String := PITCH_CLASS_TO_PC.map (fun e => e.1)

/-- Index lookup `PITCH_CLASS_TO_PC[label]`; `none` models JS `undefined`. -/
def pcIndex (label : String) : Option Nat :=
  (PITCH_CLASS_TO_PC.find? (fun e => e.1 == label)).map (·.2)

def MIN_MIDI : Nat := 45
def MAX_MIDI : Nat := 79

/-- Source: `midiFromPitchClass`.  `12 * (octave + 1) + pc`; an unknown
label makes the JS expression `NaN`, modelled as `none`. -/
def midiFromPitchClass (pitchClassLabel : String) (octave : Nat) : Option Nat :=
  (pcIndex pitchClassLabel).map (fun pc => 12 * (octave + 1) + pc)

/-- Source: `pitchFromMidi`.  `pc = midi % 12`, `octave = floor(midi/12) - 1`,
label looked up in the entries of `PITCH_CLASS_TO_PC` (empty string when not
found).  On the nonnegative midis this program uses, JS `%`, `/` and
`Math.floor` coincide with Nat `%` / `/` (the octave is returned in `ℤ`
because JS subtracts 1 after the floor). -/
def pitchFromMidi (midi : Nat) : String × Int :=
  let pc := midi % 12
  let pitchClass := ((PITCH_CLASS_TO_PC.find? (fun e => e.2 == pc)).map (·.1)).getD ""
  (pitchClass, (midi / 12 : Nat) - 1)

/-- Source: `validMidisForPitchClass`.  Octaves 0..8 whose midi falls in
`[MIN_MIDI, MAX_MIDI]`, in ascending octave order. -/
def validMidisForPitchClass (pitchClass : String) : List Nat :=
  ((List.range 9).filterMap (fun octave => midiFromPitchClass pitchClass octave)).filter
    (fun midi => decide (MIN_MIDI ≤ midi ∧ midi ≤ MAX_MIDI))

/-- A note triple `{ midi, pitchClass, octave }` as produced by
`nearestMidiForPitchClass` and `pickTarget`. -/
structure PickedNote where
  midi : Nat
  pitchClass : String
  octave : Int
  deriving DecidableEq, Repr

/-- The scanning loop of `nearestMidiForPitchClass`: starting from the
current best candidate, replace it whenever a later candidate has strictly
smaller absolute distance to `targetMidi`, or equal distance and smaller
midi. -/
def bestMidiLoop (targetMidi : Int) (best : Nat) : List Nat → Nat
  | [] => best
  | c :: cs =>
    if |(c : Int) - targetMidi| < |(best : Int) - targetMidi| ∨
        (|(c : Int) - targetMidi| = |(best : Int) - targetMidi| ∧ c < best) then
      bestMidiLoop targetMidi c cs
    else
      bestMidiLoop targetMidi best cs

/-- Source: `nearestMidiForPitchClass`. -/
def nearestMidiForPitchClass (pitchClass : String) (targetMidi : Int) : Option PickedNote :=
  match validMidisForPitchClass pitchClass with
  | [] => none
  | c :: cs =>
    let bestMidi := bestMidiLoop targetMidi c cs
    let p := pitchFromMidi bestMidi
    some ⟨bestMidi, p.1, p.2⟩

/-- Source: `pickRandom(list)` = `list[Math.floor(Math.random() * list.length)]`,
with the `Math.random()` outcome `u` made explicit.  For `u ∈ [0,1)` and a
nonempty list the index is always in bounds, so the default is never hit. -/
def pickRandomAt (u : ℚ) (l : List α) (dflt : α) : α :=
  l.getD (Int.toNat ⌊u * l.length⌋) dflt

/-- Weights used by `pickTarget`: the previous pitch class gets `0.5`, every
other active pitch class gets `1`. -/
def repeatWeights (active : List String) (prev : String) : List ℚ :=
  active.map (fun pc => if pc = prev then 1/2 else 1)

/-- The `for` loop of `pickTarget`'s weighted choice:
`if ((r -= weights[i]) <= 0) pick i`.  Returns the picked index. -/
def weightedIdx : List ℚ → ℚ → Option Nat
  | [], _ => none
  | w :: ws, r => if r - w ≤ 0 then some 0 else (weightedIdx ws (r - w)).map (· + 1)

/-- The pitch-class choice of `pickTarget`: weighted sampling when a
previous pitch class is supplied, is active and more than one class is
active; otherwise `pickRandom` over the active classes.  `u` is the one
`Math.random()` outcome this step consumes (`r = u * totalWeight` in the
weighted branch).  The `getLastD` arm is the source's
`if (!pitchClass) pitchClass = selectedPitchClasses[length - 1]` fallback. -/
def choosePitchClass (active : List String) (prev : Option String) (u : ℚ) : String :=
  match prev with
  | some p =>
    if 1 < active.length ∧ p ∈ active then
      let ws := repeatWeights active p
      match weightedIdx ws (u * ws.sum) with
      | some i => active.getD i ""
      | none => active.getLastD ""
    else pickRandomAt u active ""
  | none => pickRandomAt u active ""

/-- Source: `pickTarget(excludeMidis, prevPitchClass)` with the component's
`selectedPitchClasses` passed explicitly and the two `Math.random()`
outcomes (`u1` for the pitch-class choice, `u2` for the midi choice) made
explicit. -/
def pickTarget (active : List String) (excludeMidis : List Nat)
    (prevPitchClass : Option String) (u1 u2 : ℚ) : Option PickedNote :=
  if active.length = 0 then none
  else
    let pitchClass := choosePitchClass active prevPitchClass u1
    let candidateMidis := validMidisForPitchClass pitchClass
    if candidateMidis.length = 0 then none
    else
      let filteredMidis := candidateMidis.filter (fun midi => !(excludeMidis.contains midi))
      let poolMidis := if filteredMidis.length ≠ 0 then filteredMidis else candidateMidis
      let targetMidi := pickRandomAt u2 poolMidis 0
      let p := pitchFromMidi targetMidi
      some ⟨targetMidi, pitchClass, p.2⟩

/-! ### Storage loaders (`loadSelected`, `loadHistory`)

`localStorage.getItem` + `JSON.parse` are external; a stored blob is
modelled by its parse outcome: `none` = absent (or the empty string, which
is both falsy and unparseable), `some none` = present but unparseable,
`some (some v)` = parses to the JSON value `v`. -/

/-- JSON values, the possible results of `JSON.parse`. -/
inductive Json where
  | null : Json
  | bool : Bool → Json
  | num : ℚ → Json
  | str : String → Json
  | arr : List Json → Json
  | obj : List (String × Json) → Json

/-- JS truthiness of a JSON value (`null`, `false`, `0`, `""` are falsy;
arrays and objects are always truthy). -/
def Json.truthy : Json → Bool
  | .null => false
  | .bool b => b
  | .num q => decide (q ≠ 0)
  | .str s => decide (s ≠ "")
  | .arr _ => true
  | .obj _ => true

/-- The default selection `{ C: true, E: true, "G#": true }`. -/
def defaultSelected : Json :=
  Json.obj [("C", Json.bool true), ("E", Json.bool true), ("G#", Json.bool true)]

/-- Source: `loadSelected`.  Returns the parsed blob as-is when parsing
succeeds, else the default selection. -/
def loadSelected : Option (Option Json) → Json
  | some (some v) => v
  | _ => defaultSelected

/-- Source: `loadHistory`.  `JSON.parse(raw) || []`: the parsed value when
it is truthy, else the empty array; absent or unparseable also gives the
empty array. -/
def loadHistory : Option (Option Json) → Json
  | some (some v) => if v.truthy then v else Json.arr []
  | _ => Json.arr []

/-! ### History events and statistics (`recordGuess`, `summarizeBy`) -/

/-- A persisted history entry.  The source pushes the object
`{ ts, midi, pitchClass, letter, octave, guess, correct }`; optional fields
model that legacy entries may lack some of them (JS `undefined`).  `ts` is
the `Date.now()` timestamp, `guess` the guessed pitch class. -/
structure HistItem where
  ts : Int := 0
  midi : Option Nat := none
  pitchClass : Option String := none
  letter : Option String := none
  octave : Option Int := none
  guess : Option String := none
  correct : Bool := false
  deriving DecidableEq, Repr

/-- The backwards-compatible read `item.pitchClass ?? item.letter`. -/
def readPC (item : HistItem) : Option String :=
  item.pitchClass.orElse (fun _ => item.letter)

/-- One output row of the aggregator: `{ label, total, correct, pct }`. -/
structure StatRow where
  label : String
  total : Nat
  correct : Nat
  pct : Int
  deriving DecidableEq, Repr

/-- The aggregator output `{ all, rows }` (spec name: StatSummary). -/
structure StatSummary where
  all : StatRow
  rows : List StatRow
  deriving DecidableEq, Repr

/-- JS `Math.round` on the nonnegative rationals this program rounds:
`floor(q + 1/2)`. -/
def jsRound (q : ℚ) : Int := ⌊q + 1/2⌋

/-- `total ? Math.round((correct / total) * 100) : 0`. -/
def pctOf (correct total : Nat) : Int :=
  if total = 0 then 0 else jsRound (((correct : ℚ) / (total : ℚ)) * 100)

/-- The counting core of `summarizeBy` applied to the (already filtered)
items.  The source loops once, incrementing `byLabel[pc]` when `pc` is one
of the 12 keys and the overall counters unconditionally; counting each
label's matching items separately is the same function of the list. -/
def summarizeItems (items : List HistItem) : StatSummary :=
  let rows := PITCH_CLASSES.map (fun pitchClass =>
    let total := (items.filter (fun item => readPC item == some pitchClass)).length
    let correct :=
      (items.filter (fun item => readPC item == some pitchClass && item.correct)).length
    { label := pitchClass, total := total, correct := correct, pct := pctOf correct total })
  let totalCount := items.length
  let correctCount := (items.filter (·.correct)).length
  { all := { label := "All", total := totalCount, correct := correctCount,
             pct := pctOf correctCount totalCount }, rows := rows }

/-- Source: `summarizeBy(rangeFilter)`, with the history it reads from
storage passed explicitly. -/
def summarizeBy (history : List HistItem) (rangeFilter : Option (HistItem → Bool)) :
    StatSummary :=
  summarizeItems (match rangeFilter with | some f => history.filter f | none => history)

/-- Source: `recordGuess(target, guessPitchClass)` with the current time and
stored history explicit; returns the new history and the correctness flag. -/
def recordGuess (now : Int) (target : PickedNote) (guessPitchClass : String)
    (history : List HistItem) : List HistItem × Bool :=
  let correct := guessPitchClass == target.pitchClass
  (history ++ [{ ts := now, midi := some target.midi,
                 pitchClass := some target.pitchClass, letter := some target.pitchClass,
                 octave := some target.octave, guess := some guessPitchClass,
                 correct := correct }], correct)

/-! ### Round state machine (the component's state and event handlers) -/

/-- The quiz state held by the component: the pitch-class toggles, the
current round (`currentNote` bundles the picked note with its instrument
name), the post-guess feedback fields, the rolling last-3 window
(`lastPlayedRef`) and the persisted history. -/
structure AppState where
  selected : String → Bool
  currentNote : Option (PickedNote × String)
  postGuess : Bool
  lastGuessLetter : Option String
  lastGuessCorrect : Option Bool
  nearestMap : Option (List (String × PickedNote))
  lastPlayed : List Nat
  history : List HistItem

/-- `selectedPitchClasses = PITCH_CLASSES.filter(pc => !!selected[pc])`. -/
def selectedPitchClasses (s : AppState) : List String :=
  PITCH_CLASSES.filter s.selected

/-- JS `arr.slice(-3)`. -/
def lastThree (l : List Nat) : List Nat := l.drop (l.length - 3)

/-- `[...lastPlayed, midi].slice(-3)`: append and keep the last three. -/
def pushPlayed (l : List Nat) (midi : Nat) : List Nat := lastThree (l ++ [midi])

/-- Source: `resetRound` (the focus call touches only the DOM). -/
def resetRound (s : AppState) : AppState :=
  { s with postGuess := false, lastGuessLetter := none, lastGuessCorrect := none,
           nearestMap := none, currentNote := none }

/-- Source: `onToggle(pitchClass)`: refuse to switch off the last active
pitch class; otherwise flip the toggle, persist it, and end the round. -/
def onToggle (pitchClass : String) (s : AppState) : AppState :=
  let onCount := (selectedPitchClasses s).length
  let currentlyOn := s.selected pitchClass
  if currentlyOn ∧ onCount ≤ 1 then s
  else
    resetRound { s with selected := fun q => if q = pitchClass then !currentlyOn else s.selected q }

/-- Source: `onGuess(pitchClass)`: no-op without a current note; otherwise
record the guess, store the feedback, build the nearest-note preview map
over the currently active pitch classes, and enter the post-guess state. -/
def onGuess (now : Int) (pitchClass : String) (s : AppState) : AppState :=
  match s.currentNote with
  | none => s
  | some cn =>
    let res := recordGuess now cn.1 pitchClass s.history
    let nearestByPitchClass := (selectedPitchClasses s).filterMap
      (fun pc => (nearestMidiForPitchClass pc (cn.1.midi : Int)).map (fun nr => (pc, nr)))
    { s with history := res.1, lastGuessLetter := some pitchClass,
             lastGuessCorrect := some res.2, nearestMap := some nearestByPitchClass,
             postGuess := true }

/-- The bias pitch class `onPlayNew` passes to `pickTarget`:
`currentNote?.pitchClass || (lastPlayed last entry's pitch class) || null`
(`||`: the current note's label wins unless falsy, i.e. empty). -/
def prevPitchClassOf (s : AppState) : Option String :=
  let prevFromCurrent := match s.currentNote with | some cn => cn.1.pitchClass | none => ""
  if prevFromCurrent ≠ "" then some prevFromCurrent
  else match s.lastPlayed.getLast? with
    | some m => some (pitchFromMidi m).1
    | none => none

/-- Source: `onPlayNew`: pick a target with the recent window and the bias
pitch class (consuming the two random draws); on success clear the
feedback, set the new current note (with the prefetched instrument) and
push the target midi into the rolling window.  Audio playback and
instrument prefetching touch no modelled state. -/
def onPlayNew (u1 u2 : ℚ) (instrument : String) (s : AppState) : AppState :=
  match pickTarget (selectedPitchClasses s) s.lastPlayed (prevPitchClassOf s) u1 u2 with
  | none => s
  | some t =>
    { s with postGuess := false, lastGuessLetter := none, lastGuessCorrect := none,
             nearestMap := none, currentNote := some (t, instrument),
             lastPlayed := pushPlayed s.lastPlayed t.midi }

/-- Source: `onReplay`: replays the current note's audio
(`playNoteName`) and returns; it mutates none of the modelled state — in
particular it does not touch `lastPlayedRef`. -/
def onReplay (s : AppState) : AppState := s

/-- Source: the guess-button `onClick`.  Before the first guess it plays
the nearest note of the guessed pitch class, pushes that midi into the
rolling window and records the guess; after the guess it plays the preview
from `nearestMap` and pushes the previewed midi. -/
def guessButtonClick (now : Int) (pitchClass : String) (s : AppState) : AppState :=
  if !s.postGuess then
    let s1 := match s.currentNote with
      | some cn =>
        match nearestMidiForPitchClass pitchClass (cn.1.midi : Int) with
        | some nearest => { s with lastPlayed := pushPlayed s.lastPlayed nearest.midi }
        | none => s
      | none => s
    onGuess now pitchClass s1
  else
    match s.nearestMap with
    | some m =>
      match (m.find? (fun e => e.1 == pitchClass)).map (·.2) with
      | some nearest => { s with lastPlayed := pushPlayed s.lastPlayed nearest.midi }
      | none => s
    | none => s

/-! ### Helper lemmas -/

/-- `pctOf` evaluated by natural division: for `t ≠ 0`,
`⌊(c/t)*100 + 1/2⌋ = (200*c + t) / (2*t)`.  This makes the rational floor
kernel-computable. -/
def pctOfNat (correct total : Nat) : Int :=
  if total = 0 then 0 else (((200 * correct + total) / (2 * total) : Nat) : Int)

theorem pctOf_eval (c t : Nat) : pctOf c t = pctOfNat c t := by
  unfold pctOf pctOfNat jsRound
  rcases eq_or_ne t 0 with h | h
  · simp [h]
  · rw [if_neg h, if_neg h]
    have ht : ((t : ℚ)) ≠ 0 := Nat.cast_ne_zero.mpr h
    have key : ((c : ℚ) / (t : ℚ)) * 100 + 1/2 =
        ((200 * c + t : Nat) : ℚ) / ((2 * t : Nat) : ℚ) := by
      push_cast
      field_simp
      ring
    rw [key, Rat.floor_natCast_div_natCast]
    norm_cast

/-- `summarizeItems` with the percentage computed by `pctOfNat`. -/
def summarizeItemsNat (items : List HistItem) : StatSummary :=
  let rows := PITCH_CLASSES.map (fun pitchClass =>
    let total := (items.filter (fun item => readPC item == some pitchClass)).length
    let correct :=
      (items.filter (fun item => readPC item == some pitchClass && item.correct)).length
    { label := pitchClass, total := total, correct := correct, pct := pctOfNat correct total })
  let totalCount := items.length
  let correctCount := (items.filter (·.correct)).length
  { all := { label := "All", total := totalCount, correct := correctCount,
             pct := pctOfNat correctCount totalCount }, rows := rows }

theorem summarizeBy_eval (history : List HistItem) (f : Option (HistItem → Bool)) :
    summarizeBy history f =
      summarizeItemsNat (match f with | some p => history.filter p | none => history) := by
  unfold summarizeBy summarizeItems summarizeItemsNat
  simp [pctOf_eval]

/-! ### Claim theorems -/

/-- **C7.** For every pitch class `P` among the 12 labels and every octave
`O` in `0..8` such that `midiFromPitchClass(P, O)` lies in `[45, 79]`,
`pitchFromMidi (midiFromPitchClass P O) = (P, O)` (round-trip law). -/
theorem claim_C7 : ∀ p ∈ PITCH_CLASSES, ∀ o ∈ List.range 9,
    ∀ m ∈ (midiFromPitchClass p o).toList,
      MIN_MIDI ≤ m → m ≤ MAX_MIDI → pitchFromMidi m = (p, (o : Int)) := by
  decide

/-- Witness for C7 at `P = "C"`, `O = 3` (midi 48). -/
theorem claim_C7_witness :
    ("C" ∈ PITCH_CLASSES ∧ 3 ∈ List.range 9 ∧ 48 ∈ (midiFromPitchClass "C" 3).toList ∧
      MIN_MIDI ≤ 48 ∧ 48 ≤ MAX_MIDI) ∧
    pitchFromMidi 48 = ("C", (3 : Int)) :=
  ⟨by decide, claim_C7 "C" (by decide) 3 (by decide) 48 (by decide) (by decide) (by decide)⟩

/-- The three-event history of the statistics example in §8. -/
def c4History : List HistItem :=
  [{ ts := 0, pitchClass := some "C", correct := true },
   { ts := 0, pitchClass := some "C", correct := false },
   { ts := 0, pitchClass := some "E", correct := true }]

/-- **C4.** On the example history, `summarizeBy` yields All: 3/2/67;
C: 2/1/50; E: 1/1/100; every other pitch class 0/0/0 — and in general every
row's `pct` is `round(100*correct/total)` with `0` when `total = 0`
(that formula is `pctOf`). -/
theorem claim_C4 :
    ((summarizeBy c4History none).all = { label := "All", total := 3, correct := 2, pct := 67 } ∧
     (∀ row ∈ (summarizeBy c4History none).rows,
        (row.label = "C" → row = { label := "C", total := 2, correct := 1, pct := 50 }) ∧
        (row.label = "E" → row = { label := "E", total := 1, correct := 1, pct := 100 }) ∧
        (row.label ≠ "C" → row.label ≠ "E" → row.total = 0 ∧ row.pct = 0))) ∧
    (∀ (history : List HistItem) (f : Option (HistItem → Bool)),
       (summarizeBy history f).all.pct =
         pctOf (summarizeBy history f).all.correct (summarizeBy history f).all.total ∧
       ∀ row ∈ (summarizeBy history f).rows,
         row.pct = pctOf row.correct row.total ∧ (row.total = 0 → row.pct = 0)) := by
  constructor
  · constructor
    · rw [summarizeBy_eval]; decide
    · rw [summarizeBy_eval]; decide
  · intro history f
    constructor
    · rfl
    · intro row hrow
      simp only [summarizeBy, summarizeItems, List.mem_map] at hrow
      obtain ⟨pc, _, hpc⟩ := hrow
      subst hpc
      refine ⟨rfl, ?_⟩
      intro h0
      simp only [pctOf]
      exact if_pos h0

/-- Witness for C4's general pct clause at the "C" row of the example. -/
theorem claim_C4_witness :
    ({ label := "C", total := 2, correct := 1, pct := 50 } : StatRow) ∈
        (summarizeBy c4History none).rows ∧
    ({ label := "C", total := 2, correct := 1, pct := 50 } : StatRow).pct =
        pctOf 1 2 :=
  ⟨by rw [summarizeBy_eval]; decide,
   ((claim_C4.2 c4History none).2 _ (by rw [summarizeBy_eval]; decide)).1⟩

/-- **C10 (amended).** `loadSelected` returns any parsed value as-is and
falls back to the default `{C, E, G#}` exactly when the blob is absent or
unparseable; `loadHistory` returns the parsed value when it is truthy and
falls back to the empty array when the blob is absent, unparseable, **or
parses to a JS-falsy value** (`null`, `false`, `0`, `""`). -/
theorem claim_C10 :
    (∀ v : Json, loadSelected (some (some v)) = v) ∧
    loadSelected none = defaultSelected ∧
    loadSelected (some none) = defaultSelected ∧
    (∀ v : Json, v.truthy = true → loadHistory (some (some v)) = v) ∧
    (∀ v : Json, v.truthy = false → loadHistory (some (some v)) = Json.arr []) ∧
    loadHistory none = Json.arr [] ∧
    loadHistory (some none) = Json.arr [] := by
  refine ⟨fun v => rfl, rfl, rfl, fun v hv => ?_, fun v hv => ?_, rfl, rfl⟩
  · simp [loadHistory, hv]
  · simp [loadHistory, hv]

/-- Counterexample to C10 as stated: the stored blob `"null"` is present
and parseable, yet `loadHistory` still falls back to the empty array (and
does not return the parsed value), because `JSON.parse(raw) || []` also
replaces parseable falsy values. -/
theorem claim_C10_cex :
    loadHistory (some (some Json.null)) = Json.arr [] ∧
    loadHistory (some (some Json.null)) ≠ Json.null :=
  ⟨rfl, fun h => Json.noConfusion h⟩

/-- Witness for C10 (amended) on a truthy parsed history. -/
theorem claim_C10_witness :
    Json.truthy (Json.arr [Json.num 1]) = true ∧
    loadHistory (some (some (Json.arr [Json.num 1]))) = Json.arr [Json.num 1] :=
  ⟨rfl, claim_C10.2.2.2.1 _ rfl⟩

/-- **C1.** In the Prompted state (a current note is set, no guess yet),
`onGuess` appends exactly one history event carrying the timestamp, the
target's midi, pitch class and octave, the guessed pitch class and the
correctness flag — which is `true` iff the guessed pitch class equals the
target's — and touches no existing entry.  (The source realises §3's
`timestamp` as `ts` and `guessedPitchClass` as `guess`, and additionally
duplicates the pitch class into the legacy `letter` field sanctioned by
§3's backward-compatibility note.) -/
theorem claim_C1 (s : AppState) (now : Int) (pc : String) (cn : PickedNote × String)
    (hcur : s.currentNote = some cn) (hpost : s.postGuess = false) :
    (onGuess now pc s).history =
      s.history ++ [{ ts := now, midi := some cn.1.midi, pitchClass := some cn.1.pitchClass,
                      letter := some cn.1.pitchClass, octave := some cn.1.octave,
                      guess := some pc, correct := pc == cn.1.pitchClass }] ∧
    ((pc == cn.1.pitchClass) = true ↔ pc = cn.1.pitchClass) ∧
    (onGuess now pc s).history.length = s.history.length + 1 ∧
    (∀ i, i < s.history.length → (onGuess now pc s).history.get? i = s.history.get? i) := by
  have hhist : (onGuess now pc s).history =
      s.history ++ [{ ts := now, midi := some cn.1.midi, pitchClass := some cn.1.pitchClass,
                      letter := some cn.1.pitchClass, octave := some cn.1.octave,
                      guess := some pc, correct := pc == cn.1.pitchClass }] := by
    simp [onGuess, hcur, recordGuess]
  refine ⟨hhist, beq_iff_eq, ?_, ?_⟩
  · rw [hhist]; simp
  · intro i hi
    rw [hhist, List.get?_append hi]

/-- A concrete Prompted state for the C1 witness. -/
def c1State : AppState :=
  { selected := fun q => decide (q = "C" ∨ q = "E" ∨ q = "G#"),
    currentNote := some (⟨60, "C", 4⟩, "oboe"),
    postGuess := false,
    lastGuessLetter := none, lastGuessCorrect := none, nearestMap := none,
    lastPlayed := [60], history := [] }

/-- Witness for C1: a wrong guess of "E" against target C4 (midi 60). -/
theorem claim_C1_witness :
    (c1State.currentNote = some (⟨60, "C", 4⟩, "oboe") ∧ c1State.postGuess = false) ∧
    (onGuess 1000 "E" c1State).history =
      c1State.history ++ [{ ts := 1000, midi := some 60, pitchClass := some "C",
                            letter := some "C", octave := some 4,
                            guess := some "E", correct := ("E" == "C") }] :=
  ⟨⟨rfl, rfl⟩, (claim_C1 c1State 1000 "E" (⟨60, "C", 4⟩, "oboe") rfl rfl).1⟩

/-- **C9.** With a round in progress (Prompted or PostGuess), toggling the
last remaining active pitch class off is refused (the state is unchanged,
preserving the non-empty invariant); any other toggle ends the round —
current note, guess feedback and preview map cleared, i.e. Idle — leaves
the guess history untouched, and keeps the active set non-empty. -/
theorem claim_C9 (s : AppState) (pc : String) (hpc : pc ∈ PITCH_CLASSES)
    (hround : s.currentNote ≠ none ∨ s.postGuess = true) :
    (s.selected pc = true → (selectedPitchClasses s).length ≤ 1 → onToggle pc s = s) ∧
    (¬(s.selected pc = true ∧ (selectedPitchClasses s).length ≤ 1) →
       (onToggle pc s).currentNote = none ∧
       (onToggle pc s).postGuess = false ∧
       (onToggle pc s).lastGuessLetter = none ∧
       (onToggle pc s).lastGuessCorrect = none ∧
       (onToggle pc s).nearestMap = none ∧
       (onToggle pc s).history = s.history ∧
       (1 ≤ (selectedPitchClasses s).length →
          1 ≤ (selectedPitchClasses (onToggle pc s)).length)) := by
  constructor
  · intro h1 h2
    simp only [onToggle]
    exact if_pos ⟨h1, h2⟩
  · intro hn
    have e : onToggle pc s =
        resetRound { s with
          selected := fun q => if q = pc then !s.selected pc else s.selected q } := by
      simp only [onToggle]
      exact if_neg hn
    rw [e]
    refine ⟨rfl, rfl, rfl, rfl, rfl, rfl, ?_⟩
    intro hpos
    simp only [selectedPitchClasses, resetRound]
    rcases h : s.selected pc with _ | _
    · -- toggled on: pc itself is now selected
      have hmem : pc ∈ PITCH_CLASSES.filter
          (fun q => if q = pc then !false else s.selected q) :=
        List.mem_filter.mpr ⟨hpc, by simp⟩
      exact List.length_pos_of_mem hmem
    · -- toggled off: at least two were selected, so another one remains
      have h2 : ¬(selectedPitchClasses s).length ≤ 1 := fun hle => hn ⟨h, hle⟩
      have hl2 : 2 ≤ (PITCH_CLASSES.filter s.selected).length := by
        simp only [selectedPitchClasses] at h2; omega
      have hnd' : (PITCH_CLASSES.filter s.selected).Nodup :=
        List.Nodup.filter _ (by decide)
      have h0 : 0 < (PITCH_CLASSES.filter s.selected).length := by omega
      have h1 : 1 < (PITCH_CLASSES.filter s.selected).length := by omega
      have hxy : (PITCH_CLASSES.filter s.selected).get ⟨0, h0⟩ ≠
          (PITCH_CLASSES.filter s.selected).get ⟨1, h1⟩ := by
        intro hEq
        have h01 := (List.Nodup.get_inj_iff hnd').mp hEq
        simp at h01
      have pick : ∃ z, z ∈ PITCH_CLASSES ∧ s.selected z = true ∧ z ≠ pc := by
        rcases eq_or_ne ((PITCH_CLASSES.filter s.selected).get ⟨0, h0⟩) pc with hz | hz
        · obtain ⟨hzPC, hzsel⟩ :=
            List.mem_filter.mp ((PITCH_CLASSES.filter s.selected).get_mem 1 h1)
          exact ⟨(PITCH_CLASSES.filter s.selected).get ⟨1, h1⟩, hzPC, hzsel,
            fun hy => hxy (by rw [hz, hy])⟩
        · obtain ⟨hzPC, hzsel⟩ :=
            List.mem_filter.mp ((PITCH_CLASSES.filter s.selected).get_mem 0 h0)
          exact ⟨(PITCH_CLASSES.filter s.selected).get ⟨0, h0⟩, hzPC, hzsel, hz⟩
      obtain ⟨z, hzPC, hzsel, hzne⟩ := pick
      have hmem : z ∈ PITCH_CLASSES.filter
          (fun q => if q = pc then !true else s.selected q) :=
        List.mem_filter.mpr ⟨hzPC, by simp [hzne, hzsel]⟩
      exact List.length_pos_of_mem hmem

/-- A concrete PostGuess-free Prompted state for the C9 witness. -/
def c9State : AppState :=
  { selected := fun q => decide (q = "C" ∨ q = "E" ∨ q = "G#"),
    currentNote := some (⟨60, "C", 4⟩, "oboe"),
    postGuess := false,
    lastGuessLetter := none, lastGuessCorrect := none, nearestMap := none,
    lastPlayed := [60], history := [{ ts := 5, pitchClass := some "C", correct := true }] }

/-- Witness for C9: toggling "C" off (3 classes active) mid-round keeps
the history unchanged. -/
theorem claim_C9_witness :
    ("C" ∈ PITCH_CLASSES ∧ (c9State.currentNote ≠ none ∨ c9State.postGuess = true) ∧
      ¬(c9State.selected "C" = true ∧ (selectedPitchClasses c9State).length ≤ 1)) ∧
    (onToggle "C" c9State).history = c9State.history :=
  ⟨by decide,
   ((claim_C9 c9State "C" (by decide) (by decide)).2 (by decide)).2.2.2.2.2.1⟩

/-- The projection of a history item that `summarizeBy` can depend on
through a timestamp-only filter: timestamp, backwards-compatible pitch
class, correctness. -/
def statView (item : HistItem) : Int × Option String × Bool :=
  (item.ts, readPC item, item.correct)

theorem filter_map_statView (p : HistItem → Bool)
    (hp : ∀ a b, statView a = statView b → p a = p b) :
    ∀ l1 l2 : List HistItem, l1.map statView = l2.map statView →
      (l1.filter p).map statView = (l2.filter p).map statView := by
  intro l1
  induction l1 with
  | nil =>
    intro l2 h
    have : l2.map statView = [] := h.symm
    rw [List.map_eq_nil] at this
    subst this
    rfl
  | cons a t1 ih =>
    intro l2 h
    cases l2 with
    | nil => exact absurd h (by simp)
    | cons b t2 =>
      simp only [List.map_cons, List.cons.injEq] at h
      obtain ⟨hab, ht⟩ := h
      have hpab := hp a b hab
      rcases hb : p b with _ | _
      · have ha' : p a = false := by rw [hpab, hb]
        rw [List.filter_cons_of_neg (by simp [ha']),
            List.filter_cons_of_neg (by simp [hb])]
        exact ih t2 ht
      · have ha' : p a = true := by rw [hpab, hb]
        rw [List.filter_cons_of_pos ha', List.filter_cons_of_pos hb]
        simp only [List.map_cons]
        rw [hab]
        exact congrArg _ (ih t2 ht)

theorem length_filter_statView (p : HistItem → Bool)
    (hp : ∀ a b, statView a = statView b → p a = p b)
    (l1 l2 : List HistItem) (h : l1.map statView = l2.map statView) :
    (l1.filter p).length = (l2.filter p).length := by
  have hm := filter_map_statView p hp l1 l2 h
  have := congrArg List.length hm
  simpa using this

/-- `summarizeItems` is a function of the items' `statView`s. -/
theorem summarizeItems_congr (l1 l2 : List HistItem)
    (h : l1.map statView = l2.map statView) : summarizeItems l1 = summarizeItems l2 := by
  have hlen : l1.length = l2.length := by
    have := congrArg List.length h; simpa using this
  have hcorr : (l1.filter (·.correct)).length = (l2.filter (·.correct)).length := by
    refine length_filter_statView _ ?_ l1 l2 h
    intro a b hab
    have : a.correct = b.correct := congrArg (fun w => w.2.2) hab
    simpa using this
  unfold summarizeItems
  simp only
  congr 1
  · rw [hlen, hcorr]
  · apply List.map_congr_left
    intro pc _
    have hrd : ∀ a b : HistItem, statView a = statView b → readPC a = readPC b := by
      intro a b hab
      exact congrArg (fun w => w.2.1) hab
    have ht := length_filter_statView (fun it => readPC it == some pc)
      (fun a b hab => by simp only [hrd a b hab]) l1 l2 h
    have hc := length_filter_statView (fun it => readPC it == some pc && it.correct)
      (fun a b hab => by
        have hco : a.correct = b.correct := by
          have := congrArg (fun w => w.2.2) hab; simpa using this
        simp only [hrd a b hab, hco]) l1 l2 h
    rw [ht, hc]

/-- **C8 (amended).** Replacing an event carrying `pitchClass = v` by the
otherwise-identical event carrying `v` in the legacy `letter` field (and
no `pitchClass`) leaves `summarizeBy` unchanged, with no filter or with
any filter that reads only the timestamp — which all the program's filters
(all-time, last-7-days, same-day) do. -/
theorem claim_C8 (g : Int → Bool) (pre post : List HistItem) (ev : HistItem) (v : String)
    (hpc : ev.pitchClass = some v) :
    summarizeBy (pre ++ ({ ev with pitchClass := none, letter := some v } : HistItem) :: post)
        (some (fun item => g item.ts)) =
      summarizeBy (pre ++ ev :: post) (some (fun item => g item.ts)) ∧
    summarizeBy (pre ++ ({ ev with pitchClass := none, letter := some v } : HistItem) :: post)
        none =
      summarizeBy (pre ++ ev :: post) none := by
  have hsv : statView ({ ev with pitchClass := none, letter := some v } : HistItem) =
      statView ev := by
    simp [statView, readPC, hpc]
  have hmap : ((pre ++ ({ ev with pitchClass := none, letter := some v } : HistItem) :: post).map
        statView) = (pre ++ ev :: post).map statView := by
    simp [hsv]
  have hts : ∀ a b : HistItem, statView a = statView b →
      (fun item => g item.ts) a = (fun item => g item.ts) b := by
    intro a b hab
    have : a.ts = b.ts := congrArg (fun w => w.1) hab
    simp only [this]
  exact ⟨summarizeItems_congr _ _ (filter_map_statView _ hts _ _ hmap),
         summarizeItems_congr _ _ hmap⟩

/-- Witness for C8 (amended) on a one-event history and the trivial
timestamp filter. -/
theorem claim_C8_witness :
    (({ ts := 10, pitchClass := some "C", correct := true } : HistItem).pitchClass =
        some "C") ∧
    summarizeBy [({ ts := 10, pitchClass := none, letter := some "C", correct := true } :
        HistItem)] (some (fun item => decide (0 ≤ item.ts))) =
      summarizeBy [({ ts := 10, pitchClass := some "C", correct := true } : HistItem)]
        (some (fun item => decide (0 ≤ item.ts))) :=
  ⟨rfl,
   (claim_C8 (fun t => decide (0 ≤ t)) [] []
      { ts := 10, pitchClass := some "C", correct := true } "C" rfl).1⟩

/-- Counterexample to C8 as stated for arbitrary filters: a filter that
inspects the `pitchClass` field itself distinguishes the legacy encoding —
the event is filtered out and the overall total drops from 1 to 0. -/
theorem claim_C8_cex :
    (summarizeBy [({ ts := 0, pitchClass := some "C", correct := true } : HistItem)]
        (some (fun item => item.pitchClass.isSome))).all.total = 1 ∧
    (summarizeBy [({ ts := 0, pitchClass := none, letter := some "C", correct := true } :
        HistItem)] (some (fun item => item.pitchClass.isSome))).all.total = 0 := by
  exact ⟨rfl, rfl⟩

/-- "`x` is at least as good a candidate as `y`" for `nearestMidiForPitchClass`:
no greater distance to `t`, and on equal distance no greater midi. -/
def lexBetter (t : Int) (x y : Nat) : Prop :=
  |(x : Int) - t| ≤ |(y : Int) - t| ∧ (|(x : Int) - t| = |(y : Int) - t| → x ≤ y)

theorem lexBetter_refl (t : Int) (x : Nat) : lexBetter t x x :=
  ⟨le_refl _, fun _ => le_refl _⟩

theorem lexBetter_trans {t : Int} {x y z : Nat} (h1 : lexBetter t x y)
    (h2 : lexBetter t y z) : lexBetter t x z := by
  obtain ⟨hxy, hxy'⟩ := h1
  obtain ⟨hyz, hyz'⟩ := h2
  refine ⟨le_trans hxy hyz, fun he => ?_⟩
  have hy_le_x : |(y : Int) - t| ≤ |(x : Int) - t| := by rw [he]; exact hyz
  have h2e : |(x : Int) - t| = |(y : Int) - t| := le_antisymm hxy hy_le_x
  have h1e : |(y : Int) - t| = |(z : Int) - t| := by rw [← he, h2e]
  exact le_trans (hxy' h2e) (hyz' h1e)

/-- The loop condition of `bestMidiLoop` means the new candidate is
strictly better; its negation means the current best stays at least as
good. -/
theorem lexBetter_of_cond {t : Int} {c b : Nat}
    (h : |(c : Int) - t| < |(b : Int) - t| ∨
         (|(c : Int) - t| = |(b : Int) - t| ∧ c < b)) : lexBetter t c b := by
  rcases h with h | ⟨he, hlt⟩
  · exact ⟨le_of_lt h, fun he => absurd he (ne_of_lt h)⟩
  · exact ⟨le_of_eq he, fun _ => le_of_lt hlt⟩

theorem lexBetter_of_not_cond {t : Int} {c b : Nat}
    (h : ¬(|(c : Int) - t| < |(b : Int) - t| ∨
           (|(c : Int) - t| = |(b : Int) - t| ∧ c < b))) : lexBetter t b c := by
  push_neg at h
  obtain ⟨h1, h2⟩ := h
  refine ⟨h1, fun he => ?_⟩
  exact h2 he.symm

theorem bestMidiLoop_mem (t : Int) (b : Nat) (l : List Nat) :
    bestMidiLoop t b l ∈ b :: l := by
  induction l generalizing b with
  | nil => simp [bestMidiLoop]
  | cons c cs ih =>
    simp only [bestMidiLoop]
    by_cases hcond : |(c : Int) - t| < |(b : Int) - t| ∨
        (|(c : Int) - t| = |(b : Int) - t| ∧ c < b)
    · rw [if_pos hcond]
      exact List.mem_cons_of_mem _ (ih c)
    · rw [if_neg hcond]
      rcases List.mem_cons.mp (ih b) with hh | hh
      · rw [hh]
        exact List.mem_cons_self _ _
      · exact List.mem_cons_of_mem _ (List.mem_cons_of_mem _ hh)

theorem bestMidiLoop_min (t : Int) (b : Nat) (l : List Nat) :
    ∀ m ∈ b :: l, lexBetter t (bestMidiLoop t b l) m := by
  induction l generalizing b with
  | nil =>
    intro m hm
    simp only [List.mem_singleton] at hm
    subst hm
    simp only [bestMidiLoop]
    exact lexBetter_refl t m
  | cons c cs ih =>
    intro m hm
    simp only [bestMidiLoop]
    by_cases hcond : |(c : Int) - t| < |(b : Int) - t| ∨
        (|(c : Int) - t| = |(b : Int) - t| ∧ c < b)
    · rw [if_pos hcond]
      rcases List.mem_cons.mp hm with rfl | hm'
      · exact lexBetter_trans (ih c c (List.mem_cons_self c cs)) (lexBetter_of_cond hcond)
      · exact ih c m hm'
    · rw [if_neg hcond]
      rcases List.mem_cons.mp hm with rfl | hm'
      · exact ih m m (List.mem_cons_self m cs)
      · rcases List.mem_cons.mp hm' with rfl | hm''
        · exact lexBetter_trans (ih b b (List.mem_cons_self b cs))
            (lexBetter_of_not_cond hcond)
        · exact ih b m (List.mem_cons_of_mem _ hm'')

/-- **C3.** `nearestMidiForPitchClass P t` returns an element of
`validMidisForPitchClass P` minimizing `|midi - t|`, ties resolved toward
the smaller midi; it returns `none` exactly when the candidate list is
empty, which happens for none of the 12 pitch classes under the configured
range `[45, 79]`. -/
theorem claim_C3 (pc : String) (t : Int) :
    (nearestMidiForPitchClass pc t = none ↔ validMidisForPitchClass pc = []) ∧
    (pc ∈ PITCH_CLASSES → validMidisForPitchClass pc ≠ []) ∧
    (∀ nr, nearestMidiForPitchClass pc t = some nr →
       nr.midi ∈ validMidisForPitchClass pc ∧
       ∀ m ∈ validMidisForPitchClass pc,
         |(nr.midi : Int) - t| ≤ |(m : Int) - t| ∧
         (|(nr.midi : Int) - t| = |(m : Int) - t| → nr.midi ≤ m)) := by
  refine ⟨?_, ?_, ?_⟩
  · cases h : validMidisForPitchClass pc with
    | nil => simp [nearestMidiForPitchClass, h]
    | cons c cs => simp [nearestMidiForPitchClass, h]
  · have hall : ∀ p ∈ PITCH_CLASSES, validMidisForPitchClass p ≠ [] := by decide
    exact hall pc
  · intro nr hnr
    cases h : validMidisForPitchClass pc with
    | nil =>
      rw [nearestMidiForPitchClass, h] at hnr
      cases hnr
    | cons c cs =>
      rw [nearestMidiForPitchClass, h] at hnr
      have hnr' := Option.some.inj hnr
      have hmidi : nr.midi = bestMidiLoop t c cs := by rw [← hnr']
      constructor
      · rw [hmidi]
        exact bestMidiLoop_mem t c cs
      · intro m hm
        have hmin := bestMidiLoop_min t c cs m hm
        rw [hmidi]
        exact hmin

/-- Witness for C3 at `P = "C"`, `t = 50`: nearest is C3 (midi 48). -/
theorem claim_C3_witness :
    ("C" ∈ PITCH_CLASSES ∧
      nearestMidiForPitchClass "C" 50 = some ⟨48, "C", 3⟩) ∧
    validMidisForPitchClass "C" ≠ [] ∧
    48 ∈ validMidisForPitchClass "C" :=
  ⟨by decide, (claim_C3 "C" 50).2.1 (by decide),
   ((claim_C3 "C" 50).2.2 ⟨48, "C", 3⟩ (by decide)).1⟩

/-- **C5 (amended).** Every note played through the quiz flow — the newly
selected target in `onPlayNew`, the guessed-note playback on the first
guess, and post-guess preview playback (including previewing the current
note's own pitch class) — pushes its midi into the rolling window, which
keeps at most the last 3 entries, evicting the oldest first.  Replaying
the current note (`onReplay`) plays audio only and leaves the window
unchanged. -/
theorem claim_C5 :
    (∀ (u1 u2 : ℚ) (instrument : String) (s : AppState) (t : PickedNote),
       pickTarget (selectedPitchClasses s) s.lastPlayed (prevPitchClassOf s) u1 u2 =
         some t →
       (onPlayNew u1 u2 instrument s).lastPlayed = pushPlayed s.lastPlayed t.midi ∧
       (onPlayNew u1 u2 instrument s).currentNote = some (t, instrument)) ∧
    (∀ (now : Int) (pc : String) (s : AppState) (cn : PickedNote × String) (nr : PickedNote),
       s.postGuess = false → s.currentNote = some cn →
       nearestMidiForPitchClass pc (cn.1.midi : Int) = some nr →
       (guessButtonClick now pc s).lastPlayed = pushPlayed s.lastPlayed nr.midi) ∧
    (∀ (now : Int) (pc : String) (s : AppState) (m : List (String × PickedNote))
       (nr : PickedNote),
       s.postGuess = true → s.nearestMap = some m →
       (m.find? (fun e => e.1 == pc)).map (·.2) = some nr →
       (guessButtonClick now pc s).lastPlayed = pushPlayed s.lastPlayed nr.midi) ∧
    (∀ (l : List Nat) (midi : Nat), l.length ≤ 3 →
       (pushPlayed l midi).length ≤ 3 ∧
       pushPlayed l midi = if l.length < 3 then l ++ [midi] else l.tail ++ [midi]) ∧
    (∀ s : AppState, (onReplay s).lastPlayed = s.lastPlayed) := by
  refine ⟨?_, ?_, ?_, ?_, fun s => rfl⟩
  · intro u1 u2 instrument s t hpick
    simp [onPlayNew, hpick]
  · intro now pc s cn nr hpost hcur hnr
    simp [guessButtonClick, hpost, hcur, hnr, onGuess]
  · intro now pc s m nr hpost hmap hfind
    simp [guessButtonClick, hpost, hmap, hfind]
  · intro l midi hlen
    by_cases hlt : l.length < 3
    · have he : pushPlayed l midi = l ++ [midi] := by
        unfold pushPlayed lastThree
        have h0 : (l ++ [midi]).length - 3 = 0 := by
          simp only [List.length_append, List.length_cons, List.length_nil]
          omega
        rw [h0, List.drop_zero]
      rw [he, if_pos hlt]
      refine ⟨?_, rfl⟩
      simp only [List.length_append, List.length_cons, List.length_nil]
      omega
    · have h3 : l.length = 3 := by omega
      obtain ⟨a, rest, rfl⟩ : ∃ a rest, l = a :: rest := by
        cases l with
        | nil => simp at h3
        | cons a rest => exact ⟨a, rest, rfl⟩
      have hr : rest.length = 2 := by simpa using h3
      have he : pushPlayed (a :: rest) midi = rest ++ [midi] := by
        unfold pushPlayed lastThree
        have h1 : ((a :: rest) ++ [midi]).length - 3 = 1 := by
          simp only [List.length_append, List.length_cons, List.length_nil]
          omega
        rw [h1]
        simp
      rw [he, if_neg hlt]
      refine ⟨?_, rfl⟩
      simp [hr]

/-- A concrete Prompted state for the C5 witness. -/
def c5WitState : AppState :=
  { selected := fun q => decide (q = "C" ∨ q = "E"),
    currentNote := some (⟨60, "C", 4⟩, "celesta"),
    postGuess := false,
    lastGuessLetter := none, lastGuessCorrect := none, nearestMap := none,
    lastPlayed := [60], history := [] }

/-- Witness for C5: the first-guess playback of "C" against target midi 60
pushes 60 into the window. -/
theorem claim_C5_witness :
    (c5WitState.postGuess = false ∧
      c5WitState.currentNote = some (⟨60, "C", 4⟩, "celesta") ∧
      nearestMidiForPitchClass "C" ((60 : Nat) : Int) = some ⟨60, "C", 4⟩) ∧
    (guessButtonClick 0 "C" c5WitState).lastPlayed = pushPlayed c5WitState.lastPlayed 60 :=
  ⟨by refine ⟨rfl, rfl, by decide⟩,
   claim_C5.2.1 0 "C" c5WitState (⟨60, "C", 4⟩, "celesta") ⟨60, "C", 4⟩ rfl rfl (by decide)⟩

/-- A Prompted state whose window is full and already holds the current
note's midi (47). -/
def c5CexState : AppState :=
  { selected := fun q => decide (q = "B"),
    currentNote := some (⟨47, "B", 2⟩, "oboe"),
    postGuess := false,
    lastGuessLetter := none, lastGuessCorrect := none, nearestMap := none,
    lastPlayed := [45, 46, 47], history := [] }

/-- Counterexample to C5 as stated: replaying the current note (midi 47)
via `onReplay` leaves the rolling window `[45, 46, 47]` unchanged, whereas
pushing the replayed midi would have produced `[46, 47, 47]` — so replay
does not push into the window. -/
theorem claim_C5_cex :
    (onReplay c5CexState).lastPlayed = [45, 46, 47] ∧
    pushPlayed c5CexState.lastPlayed 47 = [46, 47, 47] ∧
    (onReplay c5CexState).lastPlayed ≠ pushPlayed c5CexState.lastPlayed 47 := by
  refine ⟨rfl, rfl, ?_⟩
  decide

/-- With a uniform draw `u ∈ [0,1)` and a nonempty list, `pickRandom`
returns an element of the list (index `⌊u·n⌋` is in bounds). -/
theorem pickRandomAt_mem {α : Type} (u : ℚ) (l : List α) (d : α)
    (hne : l ≠ []) (h0 : 0 ≤ u) (h1 : u < 1) : pickRandomAt u l d ∈ l := by
  have hlp : 0 < l.length := List.length_pos.mpr hne
  have hlq : (0 : ℚ) < (l.length : ℚ) := by exact_mod_cast hlp
  have hnn : (0 : ℚ) ≤ u * (l.length : ℚ) := mul_nonneg h0 (le_of_lt hlq)
  have hlt : u * (l.length : ℚ) < (l.length : ℚ) := by
    have := mul_lt_mul_of_pos_right h1 hlq
    simpa using this
  have hfl0 : 0 ≤ ⌊u * (l.length : ℚ)⌋ := Int.floor_nonneg.mpr hnn
  have hflt : ⌊u * (l.length : ℚ)⌋ < (l.length : Int) := by
    refine Int.floor_lt.mpr ?_
    push_cast
    exact hlt
  have hidx : Int.toNat ⌊u * (l.length : ℚ)⌋ < l.length := by omega
  unfold pickRandomAt
  rw [List.getD_eq_getElem?_getD, List.getElem?_eq_getElem hidx]
  simp only [Option.getD_some]
  exact List.getElem_mem _

/-- The weighted-choice loop always lands on some in-bounds index when the
random offset does not exceed the total weight. -/
theorem weightedIdx_exists (ws : List ℚ) (r : ℚ) (hne : ws ≠ []) (hr : r ≤ ws.sum) :
    ∃ i, weightedIdx ws r = some i ∧ i < ws.length := by
  induction ws generalizing r with
  | nil => cases hne rfl
  | cons w t ih =>
    by_cases h : r - w ≤ 0
    · exact ⟨0, by simp [weightedIdx, h], by simp⟩
    · cases t with
      | nil =>
        exfalso
        apply h
        simp only [List.sum_cons, List.sum_nil, add_zero] at hr
        linarith
      | cons w2 t2 =>
        have hr' : r - w ≤ (w2 :: t2).sum := by
          simp only [List.sum_cons] at hr ⊢
          linarith
        obtain ⟨i, hi, hlt⟩ := ih (r - w) (by simp) hr'
        refine ⟨i + 1, ?_, by simpa using Nat.succ_lt_succ hlt⟩
        have heq : weightedIdx (w :: w2 :: t2) r =
            (weightedIdx (w2 :: t2) (r - w)).map (fun x => x + 1) := if_neg h
        rw [heq, hi]
        rfl

theorem repeatWeights_pos (active : List String) (p : String) :
    ∀ w ∈ repeatWeights active p, 0 < w := by
  intro w hw
  unfold repeatWeights at hw
  obtain ⟨pc, _, rfl⟩ := List.mem_map.mp hw
  by_cases h : pc = p <;> simp [h] <;> norm_num

theorem repeatWeights_sum_pos (active : List String) (p : String) (hne : active ≠ []) :
    0 < (repeatWeights active p).sum := by
  have hne' : repeatWeights active p ≠ [] := by
    unfold repeatWeights
    simpa using hne
  cases hws : repeatWeights active p with
  | nil => exact absurd hws hne'
  | cons w t =>
    have hpos := repeatWeights_pos active p
    rw [hws] at hpos
    rw [List.sum_cons]
    have hw : 0 < w := hpos w (List.mem_cons_self _ _)
    have ht : 0 ≤ t.sum := List.sum_nonneg (fun a ha =>
      le_of_lt (hpos a (List.mem_cons_of_mem _ ha)))
    linarith

/-- Whatever the random draw in `[0,1)`, the chosen pitch class is one of
the active ones. -/
theorem choosePitchClass_mem (active : List String) (prev : Option String) (u : ℚ)
    (hne : active ≠ []) (h0 : 0 ≤ u) (h1 : u < 1) :
    choosePitchClass active prev u ∈ active := by
  cases prev with
  | none => exact pickRandomAt_mem u active "" hne h0 h1
  | some p =>
    simp only [choosePitchClass]
    by_cases hc : 1 < active.length ∧ p ∈ active
    · rw [if_pos hc]
      have hwne : repeatWeights active p ≠ [] := by
        unfold repeatWeights
        simpa using hne
      have htot : 0 < (repeatWeights active p).sum := repeatWeights_sum_pos active p hne
      have hr : u * (repeatWeights active p).sum ≤ (repeatWeights active p).sum := by
        have := mul_le_mul_of_nonneg_right (le_of_lt h1) (le_of_lt htot)
        simpa using this
      obtain ⟨i, hi, hlt⟩ := weightedIdx_exists _ _ hwne hr
      rw [hi]
      have hlt' : i < active.length := by
        have := hlt
        unfold repeatWeights at this
        simpa using this
      show active.getD i "" ∈ active
      rw [List.getD_eq_getElem?_getD, List.getElem?_eq_getElem hlt']
      simp only [Option.getD_some]
      exact List.getElem_mem _
    · rw [if_neg hc]
      exact pickRandomAt_mem u active "" hne h0 h1

/-- Each of the 12 pitch classes has at least one valid midi in `[45,79]`. -/
theorem validMidis_nonempty : ∀ p ∈ PITCH_CLASSES, validMidisForPitchClass p ≠ [] := by
  decide

/-- **C2.** With uniform draws in `[0,1)` and the active classes a
sub-selection of the 12 labels: target selection returns `none` exactly
when the active set is empty; otherwise the returned note's midi is a
valid midi of its (active) pitch class, avoids the supplied recent-midis
exclusion list whenever any valid midi avoids it, and in the fallback case
(every valid midi excluded) is the uniform `pickRandom` over the
unfiltered candidate list. -/
theorem claim_C2 (active : List String) (excludeMidis : List Nat) (prev : Option String)
    (u1 u2 : ℚ) (hsub : active.Sublist PITCH_CLASSES)
    (h10 : 0 ≤ u1) (h11 : u1 < 1) (h20 : 0 ≤ u2) (h21 : u2 < 1) :
    (pickTarget active excludeMidis prev u1 u2 = none ↔ active = []) ∧
    (∀ t, pickTarget active excludeMidis prev u1 u2 = some t →
       t.pitchClass ∈ active ∧
       t.midi ∈ validMidisForPitchClass t.pitchClass ∧
       ((∃ m ∈ validMidisForPitchClass t.pitchClass, m ∉ excludeMidis) →
          t.midi ∉ excludeMidis) ∧
       ((∀ m ∈ validMidisForPitchClass t.pitchClass, m ∈ excludeMidis) →
          t.midi = pickRandomAt u2 (validMidisForPitchClass t.pitchClass) 0)) := by
  by_cases hne : active = []
  · subst hne
    refine ⟨by simp [pickTarget], ?_⟩
    intro t ht
    simp [pickTarget] at ht
  · have hch : choosePitchClass active prev u1 ∈ active :=
      choosePitchClass_mem active prev u1 hne h10 h11
    have hchPC : choosePitchClass active prev u1 ∈ PITCH_CLASSES := hsub.subset hch
    have hcand : validMidisForPitchClass (choosePitchClass active prev u1) ≠ [] :=
      validMidis_nonempty _ hchPC
    have hlen : ¬(active.length = 0) := by simpa [List.length_eq_zero] using hne
    have hclen : ¬((validMidisForPitchClass (choosePitchClass active prev u1)).length = 0) := by
      simpa [List.length_eq_zero] using hcand
    have hred : pickTarget active excludeMidis prev u1 u2 =
        (let pc := choosePitchClass active prev u1
         let cands := validMidisForPitchClass pc
         let filtered := cands.filter (fun midi => !(excludeMidis.contains midi))
         let pool := if filtered.length ≠ 0 then filtered else cands
         some ⟨pickRandomAt u2 pool 0, pc, (pitchFromMidi (pickRandomAt u2 pool 0)).2⟩) := by
      simp only [pickTarget]
      rw [if_neg hlen, if_neg hclen]
    refine ⟨?_, ?_⟩
    · rw [hred]
      simp only
      constructor
      · intro h
        cases h
      · intro h
        exact absurd h hne
    · intro t ht
      rw [hred] at ht
      simp only at ht
      obtain rfl := Option.some.inj ht
      simp only
      refine ⟨hch, ?_, ?_, ?_⟩
      · by_cases hf : ((validMidisForPitchClass (choosePitchClass active prev u1)).filter
            (fun midi => !(excludeMidis.contains midi))).length ≠ 0
        · rw [if_pos hf]
          have hm := pickRandomAt_mem u2
            ((validMidisForPitchClass (choosePitchClass active prev u1)).filter
              (fun midi => !(excludeMidis.contains midi))) (0 : Nat)
            (by simpa [List.length_eq_zero] using hf) h20 h21
          exact (List.mem_filter.mp hm).1
        · rw [if_neg hf]
          exact pickRandomAt_mem u2 _ 0 hcand h20 h21
      · intro hex
        obtain ⟨m, hmv, hmx⟩ := hex
        have hfne : (validMidisForPitchClass (choosePitchClass active prev u1)).filter
            (fun midi => !(excludeMidis.contains midi)) ≠ [] := by
          intro hnil
          have hmm : m ∈ (validMidisForPitchClass (choosePitchClass active prev u1)).filter
              (fun midi => !(excludeMidis.contains midi)) :=
            List.mem_filter.mpr ⟨hmv, by simpa using hmx⟩
          rw [hnil] at hmm
          cases hmm
        have hf : ((validMidisForPitchClass (choosePitchClass active prev u1)).filter
            (fun midi => !(excludeMidis.contains midi))).length ≠ 0 := by
          simpa [List.length_eq_zero] using hfne
        rw [if_pos hf]
        have hm := pickRandomAt_mem u2
          ((validMidisForPitchClass (choosePitchClass active prev u1)).filter
            (fun midi => !(excludeMidis.contains midi))) (0 : Nat)
          (by simpa [List.length_eq_zero] using hf) h20 h21
        have hmx2 := (List.mem_filter.mp hm).2
        simpa using hmx2
      · intro hall
        have hfnil : (validMidisForPitchClass (choosePitchClass active prev u1)).filter
            (fun midi => !(excludeMidis.contains midi)) = [] := by
          rw [List.filter_eq_nil]
          intro m hm
          have := hall m hm
          simpa using this
        have hf0 : ((validMidisForPitchClass (choosePitchClass active prev u1)).filter
            (fun midi => !(excludeMidis.contains midi))).length = 0 := by
          rw [hfnil]
          rfl
        have hf : ¬(((validMidisForPitchClass (choosePitchClass active prev u1)).filter
            (fun midi => !(excludeMidis.contains midi))).length ≠ 0) := fun hcon => hcon hf0
        rw [if_neg hf]

/-- Witness for C2 on the default active set `{C, E, G#}` with draws `0`. -/
theorem claim_C2_witness :
    (["C", "E", "G#"].Sublist PITCH_CLASSES ∧ (0 : ℚ) ≤ 0 ∧ (0 : ℚ) < 1) ∧
    (pickTarget ["C", "E", "G#"] [48] none 0 0 = none ↔ ["C", "E", "G#"] = []) :=
  ⟨⟨by decide, le_refl 0, zero_lt_one⟩,
   (claim_C2 ["C", "E", "G#"] [48] none 0 0 (by decide)
      (le_refl 0) zero_lt_one (le_refl 0) zero_lt_one).1⟩

/-- Partial sums of the weight list: `takeSum ws i` is the total weight of
the first `i` entries. -/
def takeSum (ws : List ℚ) (i : Nat) : ℚ := (ws.take i).sum

theorem takeSum_cons_succ (w : ℚ) (ws : List ℚ) (k : Nat) :
    takeSum (w :: ws) (k + 1) = w + takeSum ws k := by
  simp [takeSum]

theorem takeSum_succ (ws : List ℚ) (i : Nat) :
    takeSum ws (i + 1) = takeSum ws i + (ws[i]?.getD 0) := by
  unfold takeSum
  rw [List.take_succ, List.sum_append]
  cases h : ws[i]? <;> simp [h]

theorem takeSum_mono (ws : List ℚ) (h : ∀ w ∈ ws, 0 ≤ w) {i j : Nat} (hij : i ≤ j) :
    takeSum ws i ≤ takeSum ws j := by
  induction j with
  | zero =>
    have : i = 0 := Nat.le_zero.mp hij
    subst this
    exact le_refl _
  | succ j ihj =>
    by_cases hij' : i ≤ j
    · refine le_trans (ihj hij') ?_
      rw [takeSum_succ]
      have hnn : 0 ≤ ws[j]?.getD 0 := by
        cases hh : ws[j]? with
        | none => simp
        | some w =>
          simp only [Option.getD_some]
          exact h w (List.getElem?_mem hh)
      linarith
    · have : i = j + 1 := by omega
      subst this
      exact le_refl _

theorem takeSum_lt_succ (ws : List ℚ) (hpos : ∀ w ∈ ws, 0 < w) (i : Nat)
    (hi : i < ws.length) : takeSum ws i < takeSum ws (i + 1) := by
  rw [takeSum_succ, List.getElem?_eq_getElem hi]
  simp only [Option.getD_some]
  have := hpos _ (List.getElem_mem hi)
  linarith

/-- Exact characterization of the weighted-choice loop: it lands on index
`i` iff the offset `r` is at most the `i+1`-st partial sum but exceeds all
earlier ones. -/
theorem weightedIdx_eq_some_iff (ws : List ℚ) (r : ℚ) (i : Nat) :
    weightedIdx ws r = some i ↔
      i < ws.length ∧ r ≤ takeSum ws (i + 1) ∧ ∀ j < i, takeSum ws (j + 1) < r := by
  induction ws generalizing r i with
  | nil =>
    simp [weightedIdx]
  | cons w ws' ih =>
    by_cases h : r - w ≤ 0
    · have hLHS : weightedIdx (w :: ws') r = some 0 := by
        simp [weightedIdx, h]
      rw [hLHS]
      cases i with
      | zero =>
        simp only [Option.some.injEq, List.length_cons]
        constructor
        · intro _
          refine ⟨Nat.succ_pos _, ?_, by omega⟩
          rw [takeSum_cons_succ]
          have h0 : takeSum ws' 0 = 0 := rfl
          rw [h0]
          linarith
        · intro _
          trivial
      | succ i' =>
        constructor
        · intro hcon
          cases hcon
        · rintro ⟨_, _, hall⟩
          exfalso
          have := hall 0 (Nat.succ_pos _)
          rw [takeSum_cons_succ] at this
          have h0 : takeSum ws' 0 = 0 := rfl
          rw [h0] at this
          linarith
    · have hLHS : weightedIdx (w :: ws') r =
          (weightedIdx ws' (r - w)).map (fun x => x + 1) := if_neg h
      rw [hLHS]
      cases i with
      | zero =>
        constructor
        · intro hcon
          obtain ⟨a, _, ha⟩ := Option.map_eq_some'.mp hcon
          cases ha
        · rintro ⟨_, hle, _⟩
          exfalso
          rw [takeSum_cons_succ] at hle
          have h0 : takeSum ws' 0 = 0 := rfl
          rw [h0] at hle
          linarith
      | succ i' =>
        constructor
        · intro hcon
          obtain ⟨a, ha, haeq⟩ := Option.map_eq_some'.mp hcon
          have ha' : weightedIdx ws' (r - w) = some i' := by
            rwa [show a = i' by omega] at ha
          obtain ⟨h1, h2, h3⟩ := (ih (r - w) i').mp ha'
          refine ⟨by simpa using Nat.succ_lt_succ h1, ?_, ?_⟩
          · rw [takeSum_cons_succ]
            linarith
          · intro j hj
            cases j with
            | zero =>
              rw [takeSum_cons_succ]
              have h0 : takeSum ws' 0 = 0 := rfl
              rw [h0]
              linarith
            | succ j' =>
              have hj' : j' < i' := by omega
              have := h3 j' hj'
              rw [takeSum_cons_succ]
              linarith
        · rintro ⟨h1, h2, h3⟩
          refine Option.map_eq_some'.mpr ⟨i', ?_, rfl⟩
          refine (ih (r - w) i').mpr ⟨?_, ?_, ?_⟩
          · simp only [List.length_cons] at h1
            omega
          · rw [takeSum_cons_succ] at h2
            linarith
          · intro j hj
            have := h3 (j + 1) (by omega)
            rw [takeSum_cons_succ] at this
            linarith

theorem repeatWeights_length (active : List String) (p : String) :
    (repeatWeights active p).length = active.length := by
  unfold repeatWeights
  simp

theorem repeatWeights_sum_of_not_mem (l : List String) (p : String) (hnp : p ∉ l) :
    (repeatWeights l p).sum = (l.length : ℚ) := by
  induction l with
  | nil => simp [repeatWeights]
  | cons a t ih =>
    have hap : ¬(a = p) := fun h => hnp (h ▸ List.mem_cons_self a t)
    have hnt : p ∉ t := fun h => hnp (List.mem_cons_of_mem _ h)
    have hcons : repeatWeights (a :: t) p =
        (if a = p then (1/2 : ℚ) else 1) :: repeatWeights t p := rfl
    rw [hcons, List.sum_cons, if_neg hap, ih hnt]
    push_cast [List.length_cons]
    ring

/-- With no duplicates and the previous class active, the weighted total is
`n - 1/2`. -/
theorem repeatWeights_sum_eq (active : List String) (p : String) (hnd : active.Nodup)
    (hp : p ∈ active) : (repeatWeights active p).sum = (active.length : ℚ) - 1/2 := by
  induction active with
  | nil => cases hp
  | cons a t ih =>
    rcases List.nodup_cons.mp hnd with ⟨hna, hndt⟩
    have hcons : repeatWeights (a :: t) p =
        (if a = p then (1/2 : ℚ) else 1) :: repeatWeights t p := rfl
    rcases List.mem_cons.mp hp with heq | hpt
    · subst heq
      rw [hcons, List.sum_cons, if_pos rfl, repeatWeights_sum_of_not_mem t _ hna]
      push_cast [List.length_cons]
      ring
    · have hap : ¬(a = p) := fun h => hna (h ▸ hpt)
      rw [hcons, List.sum_cons, if_neg hap, ih hndt hpt]
      push_cast [List.length_cons]
      ring

theorem repeatWeights_getElem (active : List String) (p : String) (i : Nat)
    (hi : i < active.length) :
    (repeatWeights active p)[i]? =
      some (if active.get ⟨i, hi⟩ = p then (1/2 : ℚ) else 1) := by
  unfold repeatWeights
  rw [List.getElem?_map, List.getElem?_eq_getElem hi]
  rfl

/-- The weighted branch of the pitch-class choice lands on `active[i]` iff
the scaled draw `u·total` falls in the `i`-th weight segment of the
cumulative weight sequence. -/
theorem choosePitchClass_weighted_iff (active : List String) (p : String) (u : ℚ)
    (i : Nat) (hnd : active.Nodup) (hp : p ∈ active) (hn : 1 < active.length)
    (hi : i < active.length) (h0 : 0 ≤ u) (h1 : u < 1) :
    choosePitchClass active (some p) u = active.get ⟨i, hi⟩ ↔
      (u * (repeatWeights active p).sum ≤ takeSum (repeatWeights active p) (i + 1) ∧
       ∀ j < i, takeSum (repeatWeights active p) (j + 1) <
         u * (repeatWeights active p).sum) := by
  have hne : active ≠ [] := by
    intro h
    rw [h] at hn
    simp at hn
  have hwne : repeatWeights active p ≠ [] := by
    unfold repeatWeights
    simpa using hne
  have htot : 0 < (repeatWeights active p).sum := repeatWeights_sum_pos active p hne
  have hr : u * (repeatWeights active p).sum ≤ (repeatWeights active p).sum := by
    have := mul_le_mul_of_nonneg_right (le_of_lt h1) (le_of_lt htot)
    simpa using this
  obtain ⟨k, hk, hklt⟩ := weightedIdx_exists _ _ hwne hr
  have hklt' : k < active.length := by
    rw [repeatWeights_length] at hklt
    exact hklt
  have hred : choosePitchClass active (some p) u = active.get ⟨k, hklt'⟩ := by
    simp only [choosePitchClass]
    rw [if_pos ⟨hn, hp⟩, hk]
    show active.getD k "" = _
    rw [List.getD_eq_getElem?_getD, List.getElem?_eq_getElem hklt']
    rfl
  rw [hred]
  constructor
  · intro heq
    have hki : k = i := congrArg Fin.val ((List.Nodup.get_inj_iff hnd).mp heq)
    subst hki
    obtain ⟨_, h2, h3⟩ := (weightedIdx_eq_some_iff _ _ _).mp hk
    exact ⟨h2, h3⟩
  · rintro ⟨h2, h3⟩
    have hisome : weightedIdx (repeatWeights active p)
        (u * (repeatWeights active p).sum) = some i := by
      refine (weightedIdx_eq_some_iff _ _ _).mpr ⟨?_, h2, h3⟩
      rw [repeatWeights_length]
      exact hi
    have hki : k = i := Option.some.inj ((hk.symm.trans hisome))
    subst hki
    rfl

/-- The uniform `pickRandom` lands on `l[i]` iff `u` is in `[i/n, (i+1)/n)`. -/
theorem pickRandomAt_eq_get_iff (l : List String) (hnd : l.Nodup) (i : Nat)
    (hi : i < l.length) (u : ℚ) (h0 : 0 ≤ u) (h1 : u < 1) :
    pickRandomAt u l "" = l.get ⟨i, hi⟩ ↔
      ((i : ℚ) / l.length ≤ u ∧ u < ((i : ℚ) + 1) / l.length) := by
  have hlp : 0 < l.length := lt_of_le_of_lt (Nat.zero_le _) hi
  have hlq : (0 : ℚ) < (l.length : ℚ) := by exact_mod_cast hlp
  have hnn : (0 : ℚ) ≤ u * (l.length : ℚ) := mul_nonneg h0 (le_of_lt hlq)
  have hlt : u * (l.length : ℚ) < (l.length : ℚ) := by
    simpa using mul_lt_mul_of_pos_right h1 hlq
  have hfl0 : 0 ≤ ⌊u * (l.length : ℚ)⌋ := Int.floor_nonneg.mpr hnn
  have hflt : ⌊u * (l.length : ℚ)⌋ < (l.length : Int) := by
    refine Int.floor_lt.mpr ?_
    push_cast
    exact hlt
  have hidx : Int.toNat ⌊u * (l.length : ℚ)⌋ < l.length := by omega
  have hred : pickRandomAt u l "" = l.get ⟨Int.toNat ⌊u * (l.length : ℚ)⌋, hidx⟩ := by
    unfold pickRandomAt
    rw [List.getD_eq_getElem?_getD, List.getElem?_eq_getElem hidx]
    rfl
  rw [hred]
  constructor
  · intro heq
    have hk : Int.toNat ⌊u * (l.length : ℚ)⌋ = i :=
      congrArg Fin.val ((List.Nodup.get_inj_iff hnd).mp heq)
    have hfl : ⌊u * (l.length : ℚ)⌋ = (i : Int) := by omega
    obtain ⟨hb1, hb2⟩ := Int.floor_eq_iff.mp hfl
    constructor
    · rw [div_le_iff₀ hlq]
      exact_mod_cast hb1
    · rw [lt_div_iff hlq]
      exact_mod_cast hb2
  · rintro ⟨hle, hlt2⟩
    have hb1 : ((i : Int) : ℚ) ≤ u * (l.length : ℚ) := by
      rw [div_le_iff₀ hlq] at hle
      exact_mod_cast hle
    have hb2 : u * (l.length : ℚ) < (i : Int) + 1 := by
      rw [lt_div_iff hlq] at hlt2
      exact_mod_cast hlt2
    have hfl : ⌊u * (l.length : ℚ)⌋ = (i : Int) := Int.floor_eq_iff.mpr ⟨hb1, hb2⟩
    have hval : Int.toNat ⌊u * (l.length : ℚ)⌋ = i := by omega
    exact congrArg l.get (Fin.ext hval)

/-- **C6.** Modelling the random draw as a uniform `u ∈ [0,1)`: when a
previous pitch class is set, active, and more than one class is active,
the pitch class is drawn by weighted sampling — the draw selects
`active[i]` exactly when `u` lies in the `i`-th segment of the cumulative
weight sequence, each segment has mass `weight(i)/total` with
`weight = 1/2` for the previous class and `1` otherwise, the total is
`n - 1/2`, so the previous class is selected with probability
`(1/2)/(n - 1/2)`; in every other case the class is drawn uniformly
(`pickRandom`, segments `[i/n, (i+1)/n)`). -/
theorem claim_C6 :
    (∀ (active : List String) (p : String) (u : ℚ) (i : Nat),
       active.Sublist PITCH_CLASSES → p ∈ active → 1 < active.length →
       ∀ (hi : i < active.length), 0 ≤ u → u < 1 →
       ((choosePitchClass active (some p) u = active.get ⟨i, hi⟩ ↔
           (u ≤ takeSum (repeatWeights active p) (i + 1) / (repeatWeights active p).sum ∧
            ∀ j < i, takeSum (repeatWeights active p) (j + 1) /
              (repeatWeights active p).sum < u)) ∧
        takeSum (repeatWeights active p) (i + 1) / (repeatWeights active p).sum -
            takeSum (repeatWeights active p) i / (repeatWeights active p).sum =
          (if active.get ⟨i, hi⟩ = p then (1/2 : ℚ) else 1) /
            (repeatWeights active p).sum ∧
        (repeatWeights active p).sum = (active.length : ℚ) - 1/2 ∧
        (active.get ⟨i, hi⟩ = p →
           takeSum (repeatWeights active p) (i + 1) / (repeatWeights active p).sum -
               takeSum (repeatWeights active p) i / (repeatWeights active p).sum =
             (1/2 : ℚ) / ((active.length : ℚ) - 1/2)))) ∧
    (∀ (active : List String) (u : ℚ) (i : Nat), active.Sublist PITCH_CLASSES →
       ∀ (hi : i < active.length), 0 ≤ u → u < 1 →
       (choosePitchClass active none u = active.get ⟨i, hi⟩ ↔
          ((i : ℚ) / active.length ≤ u ∧ u < ((i : ℚ) + 1) / active.length))) ∧
    (∀ (active : List String) (p : String) (u : ℚ),
       ¬(1 < active.length ∧ p ∈ active) →
         choosePitchClass active (some p) u = pickRandomAt u active "") := by
  refine ⟨?_, ?_, ?_⟩
  · intro active p u i hsub hp hn hi h0 h1
    have hnd : active.Nodup := List.Nodup.sublist hsub (by decide)
    have hne : active ≠ [] := by
      intro h
      rw [h] at hn
      simp at hn
    have htot : 0 < (repeatWeights active p).sum := repeatWeights_sum_pos active p hne
    have hkey : takeSum (repeatWeights active p) (i + 1) -
        takeSum (repeatWeights active p) i =
          (if active.get ⟨i, hi⟩ = p then (1/2 : ℚ) else 1) := by
      rw [takeSum_succ, repeatWeights_getElem active p i hi]
      simp only [Option.getD_some]
      ring
    refine ⟨?_, ?_, repeatWeights_sum_eq active p hnd hp, ?_⟩
    · rw [choosePitchClass_weighted_iff active p u i hnd hp hn hi h0 h1]
      constructor
      · rintro ⟨h2, h3⟩
        refine ⟨(le_div_iff₀ htot).mpr h2, fun j hj => (div_lt_iff htot).mpr (h3 j hj)⟩
      · rintro ⟨h2, h3⟩
        refine ⟨(le_div_iff₀ htot).mp h2, fun j hj => (div_lt_iff htot).mp (h3 j hj)⟩
    · rw [div_sub_div_same, hkey]
    · intro hip
      rw [div_sub_div_same, hkey, if_pos hip, repeatWeights_sum_eq active p hnd hp]
  · intro active u i hsub hi h0 h1
    have hnd : active.Nodup := List.Nodup.sublist hsub (by decide)
    exact pickRandomAt_eq_get_iff active hnd i hi u h0 h1
  · intro active p u hnot
    simp only [choosePitchClass]
    rw [if_neg hnot]

/-- Witness for C6 on the active set `{C, E, G#}` with previous class "C"
and draw `u = 0`: the weighted total is `|{C,E,G#}| - 1/2`. -/
theorem claim_C6_witness :
    (["C", "E", "G#"].Sublist PITCH_CLASSES ∧ "C" ∈ ["C", "E", "G#"] ∧
      1 < (["C", "E", "G#"] : List String).length ∧
      0 < (["C", "E", "G#"] : List String).length ∧ (0 : ℚ) ≤ 0 ∧ (0 : ℚ) < 1) ∧
    (repeatWeights ["C", "E", "G#"] "C").sum =
      (((["C", "E", "G#"] : List String).length : ℚ)) - 1/2 :=
  ⟨⟨by decide, by decide, by decide, by decide, le_refl 0, zero_lt_one⟩,
   (claim_C6.1 ["C", "E", "G#"] "C" 0 0 (by decide) (by decide) (by decide) (by decide)
      (le_refl 0) zero_lt_one).2.2.1⟩

end PitchTeacher
